import Mathlib

/-!
Verification development for the PSK31 WAV generator (`src/PSK.cpp`).

The C++ program builds a 32-bit-word-packed bit stream from a text message
(varicode per character, a two-zero separator after each character, a
preamble and a postamble of zero bits), modulates the stream with
differential BPSK (one fixed-length symbol of 16-bit PCM samples per bit),
and frames the samples as a PCM WAV file whose two header length fields are
back-patched by `finalizeFile`.

Machine integers are modelled as `Nat` with explicit masking where the C++
code truncates (`unsigned char` casts become `% 256`); the output file is a
`List Nat` of byte values.  The repository's header file in `src/` is an
empty stub, so quantities that live only in that header (the
ascii-to-varicode table, `preamble_length_`, `postamble_length_`,
`sample_rate_`, `bits_per_sample_`) are modelled from the spec, as noted on
each definition.  Audio sample values come from `std::cos` on `double`;
they are abstracted as an arbitrary parameter `f : Nat → Int` (sample index
to sample value), which is sound for every claim below: no claim constrains
the numeric value of any sample, only byte counts, header fields and the
symbolic phase sequence.
-/

namespace PSK31

set_option maxRecDepth 100000

/-- State of the bit-stream packer of `PSK`: the completed 32-bit words
(`bit_stream_`), the partially filled word (`bit_stream_buffer_`) and the
number of already-populated (MSB-first) bits of that word
(`bit_stream_offset_`). -/
structure PackState where
  words : List Nat
  buffer : Nat
  offset : Nat
  deriving DecidableEq

/-- Initial packer state: no words, empty buffer. -/
def initState : PackState := ⟨[], 0, 0⟩

/-- The check at the top of the `addBits` loop (src/PSK.cpp:341-347): when
the buffer is full (`buffer_space == 0`), push it onto the word list and
start a fresh zero word. -/
def pushIfFull (st : PackState) : PackState :=
  if st.offset = 32 then PackState.mk (st.words ++ [st.buffer]) 0 0 else st

/-- The loop body of `PSK::addBits` (src/PSK.cpp:333-372), fuel-indexed so
that the recursion is structural; `addBitsC` instantiates the fuel with the
bit count, which suffices because every iteration consumes at least one
bit.  Each iteration first pushes the buffer when it is full, then either
copies a whole source byte (when `32 - offset ≥ num_bits` and
`num_bits > 8`) or one source bit, MSB-first within the source byte. -/
def addBitsLoop (data : List Nat) : Nat → Nat → Nat → Nat → PackState → PackState
  | 0, _, _, _, st => st
  | fuel + 1, numBits, di, bi, st =>
    if numBits = 0 then st
    else if 32 - (pushIfFull st).offset ≥ numBits ∧ numBits > 8 then
      addBitsLoop data fuel (numBits - 8) (di + 1) bi
        ⟨(pushIfFull st).words,
          (pushIfFull st).buffer ||| ((data.getD di 0) <<< (32 - (pushIfFull st).offset - 8)),
          (pushIfFull st).offset + 8⟩
    else
      addBitsLoop data fuel (numBits - 1) (if bi = 7 then di + 1 else di)
        (if bi = 7 then 0 else bi + 1)
        ⟨(pushIfFull st).words,
          (pushIfFull st).buffer |||
            (if (data.getD di 0).testBit (7 - bi) then 1 <<< (32 - (pushIfFull st).offset - 1)
             else 0),
          (pushIfFull st).offset + 1⟩

/-- `PSK::addBits(data, num_bits)`: the local cursors `data_index` and
`bit_index` start at 0 on every call. -/
def addBitsC (data : List Nat) (numBits : Nat) (st : PackState) : PackState :=
  addBitsLoop data numBits numBits 0 0 st

/-- The bit-at-a-time fallback path of `PSK::addBits` run for every bit:
identical to `addBitsLoop` with the byte-at-a-time branch removed. -/
def addBitsRefLoop (data : List Nat) : Nat → Nat → Nat → Nat → PackState → PackState
  | 0, _, _, _, st => st
  | fuel + 1, numBits, di, bi, st =>
    if numBits = 0 then st
    else
      addBitsRefLoop data fuel (numBits - 1) (if bi = 7 then di + 1 else di)
        (if bi = 7 then 0 else bi + 1)
        ⟨(pushIfFull st).words,
          (pushIfFull st).buffer |||
            (if (data.getD di 0).testBit (7 - bi) then 1 <<< (32 - (pushIfFull st).offset - 1)
             else 0),
          (pushIfFull st).offset + 1⟩

/-- Bit-at-a-time reference packing of a whole call. -/
def addBitsRefC (data : List Nat) (numBits : Nat) (st : PackState) : PackState :=
  addBitsRefLoop data numBits numBits 0 0 st

/-- Appending a single bit, as the program does for the preamble, the
postamble and the inter-character separator: `addBits` on a one-byte source
whose most significant bit is the bit to append. -/
def appendBit (st : PackState) (b : Bool) : PackState :=
  addBitsC [if b then 128 else 0] 1 st

/-- `n` single zero bits in sequence (`PSK::addPreamble` / `PSK::addPostamble`
loop body: `addBits(zeros, 1)` repeated). -/
def addNZeroBits : Nat → PackState → PackState
  | 0, st => st
  | n + 1, st => addNZeroBits n (addBitsC [0] 1 st)

/-- `PSK::pushBufferToBitStream` (src/PSK.cpp:379-384): the buffer word is
pushed unconditionally, even when it is empty or partially filled; the
resulting word list is what the modulator reads. -/
def flushWordsOf (st : PackState) : List Nat :=
  st.words ++ [st.buffer]

/-- The 32 bits of one stream word, MSB first, as the reader traverses them. -/
def wordBits (w : Nat) : List Bool :=
  (List.range 32).map fun j => w.testBit (31 - j)

/-- All bits of the pushed stream words in reading order. -/
def allBits (words : List Nat) : List Bool :=
  (words.map wordBits).flatten

/-- The bits the packer currently holds (completed words plus the populated
prefix of the buffer), in order of appending. -/
def streamBits (st : PackState) : List Bool :=
  (st.words.map wordBits).flatten ++ (List.range st.offset).map fun j => st.buffer.testBit (31 - j)

/-! ## Varicode (`PSK::addVaricode`) -/

/-- The scan loop of `PSK::addVaricode` (src/PSK.cpp:307-320): starting from
bit 0 of the stored 16-bit code with `previous_bit = 1`, find the first
index `i < 16` whose bit and whose predecessor's bit are both zero.  Fuel 16
mirrors the loop bound `i < 16`. -/
def scanGo (v : Nat) : Nat → Nat → Bool → Option Nat
  | 0, _, _ => none
  | fuel + 1, i, prev =>
    if i ≥ 16 then none
    else if ¬ v.testBit i ∧ ¬ prev then some i
    else scanGo v fuel (i + 1) (v.testBit i)

/-- Result of the `addVaricode` scan on a stored code value. -/
def scanVaricode (v : Nat) : Option Nat :=
  scanGo v 16 0 true

/-- The two-byte buffer `bits[2]` that `addVaricode` assembles before calling
`addBits` (src/PSK.cpp:311-312); the `unsigned char` stores truncate to 8
bits. -/
def varicodeBytes (v i : Nat) : List Nat :=
  [if i > 9 then (v >>> 1) % 256 else (v <<< (9 - i)) % 256,
   if i > 9 then (v <<< (17 - i)) % 256 else 0]

/-- `PSK::addVaricode c` on the looked-up code value `v = ascii_to_varicode[c]`:
when the scan triggers at `i`, `addBits(bits, i - 1)` runs; when the scan
falls through (no two consecutive zero bits among bits 0..15), nothing is
appended. -/
def addVaricodeC (v : Nat) (st : PackState) : PackState :=
  match scanVaricode v with
  | some i => addBitsC (varicodeBytes v i) (i - 1) st
  | none => st

/-- Number of bits `addVaricode` appends for a stored code value. -/
def varicodeAppendLen (v : Nat) : Nat :=
  match scanVaricode v with
  | some i => i - 1
  | none => 0

/-- The most significant `n` bits, in order, of a byte-array bit source —
the bits a call `addBits(bytes, n)` asks the packer to append (bit `k` is
bit `7 - k % 8`, MSB first, of byte `k / 8`). -/
def emittedBits (bytes : List Nat) (n : Nat) : List Bool :=
  (List.range n).map fun k => (bytes.getD (k / 8) 0).testBit (7 - k % 8)

/-- The bit sequence `addVaricode` emits for a stored code value. -/
def emittedOf (v : Nat) : List Bool :=
  match scanVaricode v with
  | some i => emittedBits (varicodeBytes v i) (i - 1)
  | none => []

/-- The bits of a varicode entry of bit length `L`, in transmission
(MSB-first) order: bit `L - 1` down to bit 0 of the stored value. -/
def codeBits (v L : Nat) : List Bool :=
  (List.range L).map fun j => v.testBit (L - 1 - j)

/-- A well-formed varicode table entry as the spec describes the (external)
table: length `L` between 1 and 10, value right-justified in `L` bits with
the top bit set, ending in a 1, and containing no two consecutive zero
bits.  Modelled from the spec: the table itself is declared in the
repository's header, which is an empty stub under `src/`. -/
def isValidCode (v L : Nat) : Bool :=
  decide (1 ≤ L) && decide (L ≤ 10) && decide (v < 2 ^ L) &&
    v.testBit (L - 1) && v.testBit 0 &&
    (List.range (L - 1)).all fun j => v.testBit j || v.testBit (j + 1)

/-- Position of the first pair of consecutive zero bits of a bit sequence —
the decoder-side rescan of the spec's self-delimiting property. -/
def firstPairZero : List Bool → Option Nat
  | [] => none
  | [_] => none
  | false :: false :: _ => some 0
  | _ :: b :: rest => (firstPairZero (b :: rest)).map (· + 1)

/-! ## Reading the bit stream back (`PSK::popNextBit`) -/

/-- Read cursor into the pushed word list (`bit_stream_index_` and the
re-used `bit_stream_offset_` after `pushBufferToBitStream` reset both
to 0). -/
structure RState where
  index : Nat
  offset : Nat
  deriving DecidableEq

/-- `PSK::popNextBit` (src/PSK.cpp:411-425): returns `-1` once the word
index reaches the number of stored words, otherwise the tested bit of the
current word (MSB-first), advancing the cursor. -/
def popNextBit (words : List Nat) (rs : RState) : Int × RState :=
  if rs.index ≥ words.length then (-1, rs)
  else
    let bit := (words.getD rs.index 0) &&& (1 <<< (31 - rs.offset))
    let rs' := if rs.offset + 1 = 32 then RState.mk (rs.index + 1) 0
               else RState.mk rs.index (rs.offset + 1)
    (if bit ≠ 0 then 1 else 0, rs')

/-- Read cursor after `k` pops, starting from the reset cursor. -/
def readAfter (words : List Nat) : Nat → RState
  | 0 => ⟨0, 0⟩
  | k + 1 => (popNextBit words (readAfter words k)).2

/-- Value of the `k`-th (0-based) call to `popNextBit`. -/
def popVal (words : List Nat) (k : Nat) : Int :=
  (popNextBit words (readAfter words k)).1

/-! ## BPSK modulation (`PSK::encodeBitStream`, BPSK branch) -/

/-- The BPSK loop of `PSK::encodeBitStream` (src/PSK.cpp:434-446) applied to
the popped bit sequence.  A phase is represented by a `Bool`: `false` for
phase 0, `true` for phase π (the comment in the source: `0 = 0, 1 = M_PI`).
For bit 1 the code emits `addSymbol(last_phase ? 0 : M_PI)` — the phase
opposite to `last_phase` — leaving the state unchanged; for bit 0 it emits
`addSymbol(last_phase ? M_PI : 0)` — the phase whose value equals
`last_phase` — and toggles the state. -/
def encodeBitStreamBPSK : Bool → List Bool → List Bool
  | _, [] => []
  | last, b :: rest =>
    if b then (!last) :: encodeBitStreamBPSK last rest
    else last :: encodeBitStreamBPSK (!last) rest

/-- The per-bit rule exactly as the spec states it (spec §4.3): bit 1 emits
a symbol at the same phase as `last_phase` with no state change; bit 0
emits a symbol at the opposite phase and toggles `last_phase`.  This
definition follows the spec's words, for comparison with
`encodeBitStreamBPSK`, which follows the source. -/
def specBpskEncode : Bool → List Bool → List Bool
  | _, [] => []
  | last, b :: rest =>
    if b then last :: specBpskEncode last rest
    else (!last) :: specBpskEncode (!last) rest

/-- Differential decoding of a per-symbol phase sequence by the rule of the
claim: a symbol whose phase equals the previous phase decodes to bit 1, an
inverted phase decodes to bit 0; the phase before the first symbol is the
reference phase. -/
def decodeDiff : Bool → List Bool → List Bool
  | _, [] => []
  | prev, p :: rest => (p == prev) :: decodeDiff p rest

/-- A bit list with its first element complemented. -/
def negFirst : List Bool → List Bool
  | [] => []
  | b :: rest => (!b) :: rest

/-! ## PCM container (`PSK::writeHeader`, `PSK::writeBytes`, `PSK::finalizeFile`) -/

/-- `PSK::writeBytes(data, size)`: the first `size` little-endian bytes of
the value. -/
def writeBytesLE (v : Nat) (size : Nat) : List Nat :=
  (List.range size).map fun j => (v >>> (8 * j)) % 256

/-- One 16-bit little-endian PCM sample (two's complement for negative
values), as `writeBytes(sample, 2)` stores an `int` sample. -/
def sampleLE2 (x : Int) : List Nat :=
  writeBytesLE (x % 65536).toNat 2

/-- The 44 header bytes written by `PSK::writeHeader` (src/PSK.cpp:255-269):
`RIFF****WAVE`, `fmt `, chunk size 16, compression code 1, 1 channel, the
sample rate, the byte rate, the block align field, the bits per sample, and
`data****`.  The placeholder `*` bytes are ASCII 42.  Modelled from the
spec: `sample_rate_ = 44100` and `bits_per_sample_ = 16` are declared only
in the repository's header file, which is an empty stub under `src/`; the
values are those of spec §6. -/
def header : List Nat :=
  [82, 73, 70, 70] ++ [42, 42, 42, 42] ++ [87, 65, 86, 69] ++
  [102, 109, 116, 32] ++
  writeBytesLE 16 4 ++ writeBytesLE 1 2 ++ writeBytesLE 1 2 ++
  writeBytesLE 44100 4 ++ writeBytesLE (44100 * 16 / 8) 4 ++
  writeBytesLE (16 / 8) 2 ++ writeBytesLE 16 2 ++
  [100, 97, 116, 97] ++ [42, 42, 42, 42]

/-- Overwriting `repl.length` bytes of a file at byte position `pos`
(seek-and-write on the open stream). -/
def patchBytes (l : List Nat) (pos : Nat) (repl : List Nat) : List Nat :=
  l.take pos ++ repl ++ l.drop (pos + repl.length)

/-- `PSK::finalizeFile` (src/PSK.cpp:284-292): with `data_start_ = 44` (the
stream position after the header) and `data_end_` the current end of the
file, write `data_end_ - data_start_` at position `data_start_ - 4 = 40`
and `data_end_ - 8` at position 4. -/
def finalizeFile (l : List Nat) : List Nat :=
  patchBytes (patchBytes l 40 (writeBytesLE (l.length - 44) 4)) 4
    (writeBytesLE (l.length - 8) 4)

/-- Little-endian read of 4 bytes at a byte position of the file. -/
def readLE4 (l : List Nat) (pos : Nat) : Nat :=
  l.getD pos 0 + 256 * l.getD (pos + 1) 0 + 65536 * l.getD (pos + 2) 0 +
    16777216 * l.getD (pos + 3) 0

/-- Little-endian read of 2 bytes at a byte position of the file. -/
def readLE2 (l : List Nat) (pos : Nat) : Nat :=
  l.getD pos 0 + 256 * l.getD (pos + 1) 0

/-! ## The whole pipeline (`PSK::PSK`, `PSK::encodeTextData`) -/

/-- The six supported modes. -/
inductive Mode where
  | BPSK125 | BPSK250 | BPSK500 | QPSK125 | QPSK250 | QPSK500
  deriving DecidableEq

/-- `symbol_rate_` as assigned by the constructor's switch. -/
def symbolRate : Mode → Nat
  | .BPSK125 => 125
  | .BPSK250 => 250
  | .BPSK500 => 500
  | .QPSK125 => 125
  | .QPSK250 => 250
  | .QPSK500 => 500

/-- `samples_per_symbol_ = floor(sample_rate_ / symbol_rate_)` with
`sample_rate_ = 44100`. -/
def samplesPerSymbol (m : Mode) : Nat :=
  44100 / symbolRate m

/-- Whether the mode takes the BPSK branch of `encodeBitStream`. -/
def isBPSK : Mode → Bool
  | .BPSK125 | .BPSK250 | .BPSK500 => true
  | _ => false

/-- The configuration the constructors store: the mode, and the callsign
fields `call_sign_` and `morse_callsign_` (empty/false for the two-argument
constructor, the given string/true for the three-argument one). -/
structure PSKConfig where
  mode : Mode
  callSign : List Char
  morseCallsign : Bool

/-- `PSK::addCallSign` (src/PSK.cpp:298-300): an empty body — it writes
nothing. -/
def addCallSign (l : List Nat) : List Nat := l

/-- The bit stream `encodeTextData` builds before flushing: `preamble_length_`
zero bits, then for each message character its varicode bits followed by a
two-zero separator (`addBits(zeros, 2)`), then `postamble_length_` zero
bits.  The table `tab` and the lengths `pre`, `post` are parameters:
modelled from the spec, since the ascii-to-varicode table and the two
length constants live only in the repository's stubbed header. -/
def buildBitStream (tab : Char → Nat) (pre post : Nat) (msg : List Char) : PackState :=
  addNZeroBits post
    (msg.foldl (fun st c => addBitsC [0] 2 (addVaricodeC (tab c) st))
      (addNZeroBits pre initState))

/-- Number of modulated symbols: in a BPSK mode, one per popped bit — the
loop drains every bit of every pushed word (the padding zeros of the tail
word included); the QPSK branch of `encodeBitStream` is empty and emits
nothing. -/
def numSymbols (m : Mode) (words : List Nat) : Nat :=
  if isBPSK m then (allBits words).length else 0

/-- The complete file `encodeTextData` writes when the output opens: header,
then for every symbol `samples_per_symbol_` 16-bit samples, then the two
length fields patched by `finalizeFile`.  Sample values are abstracted by
`f` (see the file comment). -/
def mkFile (tab : Char → Nat) (pre post : Nat) (f : Nat → Int) (cfg : PSKConfig)
    (msg : List Char) : List Nat :=
  let words := flushWordsOf (buildBitStream tab pre post msg)
  let n := numSymbols cfg.mode words * samplesPerSymbol cfg.mode
  finalizeFile (header ++ ((List.range n).map fun k => sampleLE2 (f k)).flatten)

/-- `PSK::encodeTextData` (src/PSK.cpp:152-183): throws when the file does
not open (modelled as `none`); otherwise writes the file and returns
`true` (modelled as `some` of the file's bytes).  No other failure exists:
the callsign block is commented out and `addVaricode` signals nothing. -/
def encodeTextData (tab : Char → Nat) (pre post : Nat) (f : Nat → Int)
    (openOk : Bool) (cfg : PSKConfig) (msg : List Char) : Option (List Nat) :=
  if openOk then some (mkFile tab pre post f cfg msg) else none

/-! ## Derived definitions used by the verification -/

/-! ## Packer lemmas: fuel irrelevance and bit counting -/

/-- Number of bits the packer holds: completed words plus the buffer fill. -/
def bitCount (st : PackState) : Nat := 32 * st.words.length + st.offset

theorem addBitsLoop_zero (data : List Nat) (fuel di bi : Nat) (st : PackState) :
    addBitsLoop data fuel 0 di bi st = st := by
  cases fuel <;> simp [addBitsLoop]

theorem addBitsRefLoop_zero (data : List Nat) (fuel di bi : Nat) (st : PackState) :
    addBitsRefLoop data fuel 0 di bi st = st := by
  cases fuel <;> simp [addBitsRefLoop]

theorem bitCount_pushIfFull (st : PackState) : bitCount (pushIfFull st) = bitCount st := by
  unfold pushIfFull bitCount
  split
  · rename_i h
    simp only [List.length_append, List.length_cons, List.length_nil]
    omega
  · rfl

theorem offset_pushIfFull_le (st : PackState) (h : st.offset ≤ 32) :
    (pushIfFull st).offset ≤ 31 := by
  unfold pushIfFull
  split
  · show (0 : Nat) ≤ 31
    omega
  · omega

theorem addBitsLoop_fuel (data : List Nat) :
    ∀ f1 f2 n di bi st, n ≤ f1 → n ≤ f2 →
      addBitsLoop data f1 n di bi st = addBitsLoop data f2 n di bi st := by
  intro f1
  induction f1 with
  | zero =>
    intro f2 n di bi st h1 _
    interval_cases n
    rw [addBitsLoop_zero, addBitsLoop_zero]
  | succ f1 ih =>
    intro f2 n di bi st h1 h2
    rcases Nat.eq_zero_or_pos n with h0 | h0
    · subst h0; rw [addBitsLoop_zero, addBitsLoop_zero]
    · obtain ⟨f2', rfl⟩ : ∃ k, f2 = k + 1 := ⟨f2 - 1, by omega⟩
      simp only [addBitsLoop, if_neg (by omega : ¬ n = 0)]
      split
      · exact ih f2' (n - 8) _ _ _ (by omega) (by omega)
      · exact ih f2' (n - 1) _ _ _ (by omega) (by omega)

theorem addBitsRefLoop_fuel (data : List Nat) :
    ∀ f1 f2 n di bi st, n ≤ f1 → n ≤ f2 →
      addBitsRefLoop data f1 n di bi st = addBitsRefLoop data f2 n di bi st := by
  intro f1
  induction f1 with
  | zero =>
    intro f2 n di bi st h1 _
    interval_cases n
    rw [addBitsRefLoop_zero, addBitsRefLoop_zero]
  | succ f1 ih =>
    intro f2 n di bi st h1 h2
    rcases Nat.eq_zero_or_pos n with h0 | h0
    · subst h0; rw [addBitsRefLoop_zero, addBitsRefLoop_zero]
    · obtain ⟨f2', rfl⟩ : ∃ k, f2 = k + 1 := ⟨f2 - 1, by omega⟩
      simp only [addBitsRefLoop, if_neg (by omega : ¬ n = 0)]
      exact ih f2' (n - 1) _ _ _ (by omega) (by omega)

theorem addBitsLoop_count (data : List Nat) :
    ∀ fuel n di bi st, n ≤ fuel → st.offset ≤ 32 →
      bitCount (addBitsLoop data fuel n di bi st) = bitCount st + n ∧
      (addBitsLoop data fuel n di bi st).offset ≤ 32 ∧
      (1 ≤ n → 1 ≤ (addBitsLoop data fuel n di bi st).offset) := by
  intro fuel
  induction fuel with
  | zero =>
    intro n di bi st hn h32
    interval_cases n
    rw [addBitsLoop_zero]
    exact ⟨rfl, h32, by omega⟩
  | succ fuel ih =>
    intro n di bi st hn h32
    rcases Nat.eq_zero_or_pos n with h0 | h0
    · subst h0
      rw [addBitsLoop_zero]
      exact ⟨rfl, h32, by omega⟩
    · have hp31 : (pushIfFull st).offset ≤ 31 := offset_pushIfFull_le st h32
      have hpc : bitCount (pushIfFull st) = bitCount st := bitCount_pushIfFull st
      simp only [addBitsLoop, if_neg (by omega : ¬ n = 0)]
      split
      · rename_i hfast
        have h23 : (pushIfFull st).offset ≤ 23 := by omega
        obtain ⟨c1, c2, c3⟩ := ih (n - 8) (di + 1) bi
          ⟨(pushIfFull st).words,
            (pushIfFull st).buffer ||| ((data.getD di 0) <<< (32 - (pushIfFull st).offset - 8)),
            (pushIfFull st).offset + 8⟩ (by omega) (by simp; omega)
        refine ⟨?_, c2, fun _ => c3 (by omega)⟩
        rw [c1]
        simp [bitCount] at hpc ⊢
        omega
      · obtain ⟨c1, c2, c3⟩ := ih (n - 1) (if bi = 7 then di + 1 else di)
          (if bi = 7 then 0 else bi + 1)
          ⟨(pushIfFull st).words,
            (pushIfFull st).buffer |||
              (if (data.getD di 0).testBit (7 - bi) then 1 <<< (32 - (pushIfFull st).offset - 1)
               else 0),
            (pushIfFull st).offset + 1⟩ (by omega) (by simp; omega)
        rcases Nat.eq_zero_or_pos (n - 1) with h1 | h1
        · have hres := addBitsLoop_zero data fuel (if bi = 7 then di + 1 else di)
            (if bi = 7 then 0 else bi + 1)
          rw [h1] at c1 c2 c3 ⊢
          rw [hres] at c1 c2 ⊢
          refine ⟨?_, c2, fun _ => by simp⟩
          rw [c1]
          simp [bitCount] at hpc ⊢
          omega
        · refine ⟨?_, c2, fun _ => c3 (by omega)⟩
          rw [c1]
          simp [bitCount] at hpc ⊢
          omega

/-! ## Equivalence of the byte-at-a-time fast path with the bit-at-a-time path -/

theorem pushIfFull_eq_self (st : PackState) (h : st.offset ≠ 32) : pushIfFull st = st :=
  if_neg h

theorem lor_bit_mod_shift (x byte m s : Nat) :
    (x ||| (if byte.testBit m then 1 <<< (m + s) else 0)) ||| ((byte % 2 ^ m) <<< s)
      = x ||| ((byte % 2 ^ (m + 1)) <<< s) := by
  refine Nat.eq_of_testBit_eq fun j => ?_
  simp only [Nat.testBit_lor]
  rcases Nat.lt_or_ge j s with hj | hj
  · have e1 : ((byte % 2 ^ m) <<< s).testBit j = false := by
      simp [Nat.testBit_shiftLeft, show ¬ (s ≤ j) by omega]
    have e2 : ((byte % 2 ^ (m + 1)) <<< s).testBit j = false := by
      simp [Nat.testBit_shiftLeft, show ¬ (s ≤ j) by omega]
    have e3 : (if byte.testBit m then 1 <<< (m + s) else 0).testBit j = false := by
      split
      · simp [Nat.one_shiftLeft, Nat.testBit_two_pow_of_ne (show m + s ≠ j by omega)]
      · simp
    rw [e1, e2, e3]
    simp
  · rcases Nat.lt_or_ge (j - s) m with hm | hm
    · have e3 : (if byte.testBit m then 1 <<< (m + s) else 0).testBit j = false := by
        split
        · simp [Nat.one_shiftLeft, Nat.testBit_two_pow_of_ne (show m + s ≠ j by omega)]
        · simp
      have e1 : ((byte % 2 ^ m) <<< s).testBit j = byte.testBit (j - s) := by
        simp [Nat.testBit_shiftLeft, Nat.testBit_mod_two_pow, hj, hm]
      have e2 : ((byte % 2 ^ (m + 1)) <<< s).testBit j = byte.testBit (j - s) := by
        simp [Nat.testBit_shiftLeft, Nat.testBit_mod_two_pow, hj, show j - s < m + 1 by omega]
      rw [e1, e2, e3]
      simp
    · rcases Nat.eq_or_lt_of_le hm with he | hgt
      · have e1 : ((byte % 2 ^ m) <<< s).testBit j = false := by
          simp [Nat.testBit_shiftLeft, Nat.testBit_mod_two_pow, show ¬ (j - s < m) by omega]
        have e2 : ((byte % 2 ^ (m + 1)) <<< s).testBit j = byte.testBit m := by
          simp [Nat.testBit_shiftLeft, Nat.testBit_mod_two_pow, hj,
            show j - s < m + 1 by omega, ← he]
        have e3 : (if byte.testBit m then 1 <<< (m + s) else 0).testBit j = byte.testBit m := by
          cases hb : byte.testBit m
          · simp
          · simp [Nat.one_shiftLeft, show m + s = j by omega, Nat.testBit_two_pow_self]
        rw [e1, e2, e3]
        simp
      · have e1 : ((byte % 2 ^ m) <<< s).testBit j = false := by
          simp [Nat.testBit_shiftLeft, Nat.testBit_mod_two_pow, show ¬ (j - s < m) by omega]
        have e2 : ((byte % 2 ^ (m + 1)) <<< s).testBit j = false := by
          simp [Nat.testBit_shiftLeft, Nat.testBit_mod_two_pow, show ¬ (j - s < m + 1) by omega]
        have e3 : (if byte.testBit m then 1 <<< (m + s) else 0).testBit j = false := by
          split
          · simp [Nat.one_shiftLeft, Nat.testBit_two_pow_of_ne (show m + s ≠ j by omega)]
          · simp
        rw [e1, e2, e3]
        simp

theorem bit0_shift (byte s : Nat) :
    (if byte.testBit 0 then 1 <<< s else 0) = (byte % 2) <<< s := by
  cases hb : byte.testBit 0
  · rw [Nat.testBit_zero] at hb
    have h2 : byte % 2 = 0 := by
      simp only [decide_eq_false_iff_not] at hb
      omega
    simp [h2, Nat.zero_shiftLeft]
  · rw [Nat.testBit_zero] at hb
    have h2 : byte % 2 = 1 := by simpa using hb
    simp [h2]

theorem addBitsRefLoop_byte (data : List Nat) :
    ∀ m, 1 ≤ m → m ≤ 8 →
    ∀ n di st, m ≤ n → st.offset + m ≤ 32 →
      addBitsRefLoop data n n di (8 - m) st =
        addBitsRefLoop data (n - m) (n - m) (di + 1) 0
          ⟨st.words,
            st.buffer ||| (((data.getD di 0) % 2 ^ m) <<< (32 - st.offset - m)),
            st.offset + m⟩ := by
  intro m
  induction m with
  | zero => omega
  | succ m ih =>
    intro _ hm8 n di st hmn hoff
    obtain ⟨n', rfl⟩ : ∃ k, n = k + 1 := ⟨n - 1, by omega⟩
    have hps : pushIfFull st = st := pushIfFull_eq_self st (by omega)
    simp only [addBitsRefLoop, if_neg (show ¬ n' + 1 = 0 by omega), hps, Nat.add_sub_cancel]
    rcases Nat.eq_zero_or_pos m with hm0 | hm0
    · subst hm0
      have hbi : (8 : Nat) - 1 = 7 := by norm_num
      rw [hbi]
      simp only [if_pos rfl]
      rw [show 7 - 7 = 0 by norm_num, bit0_shift (data.getD di 0) (32 - st.offset - 1)]
      rfl
    · have hbi7 : ¬ (8 - (m + 1) = 7) := by omega
      rw [if_neg hbi7, if_neg hbi7]
      have hbs : 8 - (m + 1) + 1 = 8 - m := by omega
      rw [hbs]
      have h7b : 7 - (8 - (m + 1)) = m := by omega
      rw [h7b]
      rw [ih hm0 (by omega) n' di _ (by omega) (by simp; omega)]
      have harg : n' - m = n' + 1 - (m + 1) := by omega
      rw [harg]
      have hsh : 32 - (st.offset + 1) - m = 32 - st.offset - (m + 1) := by omega
      have hbit : 32 - st.offset - 1 = m + (32 - st.offset - (m + 1)) := by omega
      have hoffe : st.offset + 1 + m = st.offset + (m + 1) := by omega
      simp only [hsh, hbit, hoffe]
      rw [lor_bit_mod_shift]

theorem addBitsLoop_small (data : List Nat) :
    ∀ fuel n di bi st, n ≤ 8 →
      addBitsLoop data fuel n di bi st = addBitsRefLoop data fuel n di bi st := by
  intro fuel
  induction fuel with
  | zero => intros; rfl
  | succ fuel ih =>
    intro n di bi st hn
    by_cases h0 : n = 0
    · subst h0; rw [addBitsLoop_zero, addBitsRefLoop_zero]
    · simp only [addBitsLoop, addBitsRefLoop, if_neg h0,
        if_neg (show ¬ (32 - (pushIfFull st).offset ≥ n ∧ n > 8) from fun h => by omega)]
      exact ih (n - 1) _ _ _ (by omega)

theorem getD_lt_256 (data : List Nat) (hdata : ∀ x ∈ data, x < 256) (di : Nat) :
    data.getD di 0 < 256 := by
  rw [List.getD_eq_getElem?_getD]
  cases h : data[di]? with
  | none => simp
  | some x =>
    have hx : x ∈ data := List.getElem?_mem h
    simpa using hdata x hx

theorem addBitsLoop_fits (data : List Nat) (hdata : ∀ x ∈ data, x < 256) :
    ∀ n di st, st.offset + n ≤ 32 →
      addBitsLoop data n n di 0 st = addBitsRefLoop data n n di 0 st := by
  intro n
  induction n using Nat.strong_induction_on with
  | _ n ih =>
    intro di st hfit
    by_cases h8 : n ≤ 8
    · exact addBitsLoop_small data n n di 0 st h8
    · have h0 : ¬ n = 0 := by omega
      have hps : pushIfFull st = st := pushIfFull_eq_self st (by omega)
      obtain ⟨n', rfl⟩ : ∃ k, n = k + 1 := ⟨n - 1, by omega⟩
      simp only [addBitsLoop, if_neg h0, hps, Nat.add_sub_cancel]
      rw [if_pos (⟨by omega, by omega⟩ : 32 - st.offset ≥ n' + 1 ∧ n' + 1 > 8)]
      rw [addBitsLoop_fuel data n' (n' + 1 - 8) (n' + 1 - 8) _ _ _ (by omega) (le_refl _)]
      rw [ih (n' + 1 - 8) (by omega) (di + 1) _ (by simp; omega)]
      have h8' := addBitsRefLoop_byte data 8 (by omega) (le_refl 8) (n' + 1) di st
        (by omega) (by omega)
      rw [show (8 : Nat) - 8 = 0 by norm_num] at h8'
      rw [h8']
      rw [Nat.mod_eq_of_lt (show data.getD di 0 < 2 ^ 8 from getD_lt_256 data hdata di)]

/-! ## Content of the packed stream for single-bit appends -/

/-- All buffer bits that the fill offset has not yet reached are zero. -/
def ZeroLow (st : PackState) : Prop :=
  ∀ i, i < 32 - st.offset → st.buffer.testBit i = false

theorem mask_testBit (b : Bool) (s j : Nat) :
    (if b then 1 <<< s else 0).testBit j = (b && decide (s = j)) := by
  cases b
  · simp
  · simp only [if_pos, Nat.one_shiftLeft, Bool.true_and]
    by_cases h : s = j
    · subst h; simp [Nat.testBit_two_pow_self]
    · simp [Nat.testBit_two_pow_of_ne h, h]

theorem appendBit_eq (st : PackState) (b : Bool) :
    appendBit st b =
      ⟨(pushIfFull st).words,
        (pushIfFull st).buffer ||| (if b then 1 <<< (32 - (pushIfFull st).offset - 1) else 0),
        (pushIfFull st).offset + 1⟩ := by
  unfold appendBit addBitsC
  simp only [addBitsLoop, if_neg (one_ne_zero)]
  rw [if_neg (show ¬ (32 - (pushIfFull st).offset ≥ 1 ∧ 1 > 8) from fun h => by omega)]
  cases b
  · simp [show Nat.testBit 0 7 = false from by decide]
  · simp [show Nat.testBit 128 7 = true from by decide]

theorem streamBits_pushIfFull (st : PackState) :
    streamBits (pushIfFull st) = streamBits st := by
  unfold pushIfFull
  split
  · rename_i h
    simp only [streamBits, List.map_append, List.flatten_append, List.map_cons, List.map_nil,
      List.flatten_cons, List.flatten_nil, List.append_nil, List.range_zero, h]
    rfl
  · rfl

theorem zeroLow_pushIfFull (st : PackState) (hz : ZeroLow st) : ZeroLow (pushIfFull st) := by
  unfold pushIfFull
  split
  · intro i _
    exact Nat.zero_testBit i
  · exact hz

theorem setBit_stream (q : PackState) (b : Bool) (h31 : q.offset ≤ 31) (hz : ZeroLow q) :
    streamBits ⟨q.words, q.buffer ||| (if b then 1 <<< (32 - q.offset - 1) else 0), q.offset + 1⟩
        = streamBits q ++ [b] ∧
      ZeroLow ⟨q.words, q.buffer ||| (if b then 1 <<< (32 - q.offset - 1) else 0),
        q.offset + 1⟩ := by
  have hs : 32 - q.offset - 1 = 31 - q.offset := by omega
  constructor
  · have hmap : (List.range q.offset).map
          (fun j => (q.buffer ||| if b then 1 <<< (32 - q.offset - 1) else 0).testBit (31 - j))
        = (List.range q.offset).map fun j => q.buffer.testBit (31 - j) := by
      apply List.map_congr_left
      intro j hj
      have hjlt : j < q.offset := List.mem_range.mp hj
      rw [Nat.testBit_lor, mask_testBit, hs]
      have hne : ¬ (31 - q.offset = 31 - j) := by omega
      simp [hne]
    have hlast : (q.buffer ||| if b then 1 <<< (32 - q.offset - 1) else 0).testBit
        (31 - q.offset) = b := by
      have hbuf : q.buffer.testBit (31 - q.offset) = false := hz _ (by omega)
      rw [Nat.testBit_lor, mask_testBit, hs, hbuf]
      simp
    simp only [streamBits, List.range_succ, List.map_append, List.map_cons, List.map_nil]
    rw [hmap, hlast]
    simp [List.append_assoc]
  · intro i hi
    simp only at hi
    rw [Nat.testBit_lor, mask_testBit, hs]
    have h1 : q.buffer.testBit i = false := hz i (by omega)
    have h2 : ¬ (31 - q.offset = i) := by omega
    simp [h1, h2]

theorem appendBit_stream (st : PackState) (b : Bool) (h32 : st.offset ≤ 32) (hz : ZeroLow st) :
    streamBits (appendBit st b) = streamBits st ++ [b] ∧
      (appendBit st b).offset ≤ 32 ∧ ZeroLow (appendBit st b) := by
  rw [appendBit_eq]
  have h31 : (pushIfFull st).offset ≤ 31 := offset_pushIfFull_le st h32
  have hzq : ZeroLow (pushIfFull st) := zeroLow_pushIfFull st hz
  obtain ⟨e1, e2⟩ := setBit_stream (pushIfFull st) b h31 hzq
  refine ⟨?_, ?_, e2⟩
  · rw [e1, streamBits_pushIfFull]
  · show (pushIfFull st).offset + 1 ≤ 32
    omega

theorem foldl_appendBit_stream (bs : List Bool) :
    ∀ st, st.offset ≤ 32 → ZeroLow st →
      streamBits (bs.foldl appendBit st) = streamBits st ++ bs ∧
        (bs.foldl appendBit st).offset ≤ 32 ∧ ZeroLow (bs.foldl appendBit st) := by
  induction bs with
  | nil => intro st h32 hz; exact ⟨by simp, h32, hz⟩
  | cons b bs ih =>
    intro st h32 hz
    obtain ⟨e1, e2, e3⟩ := appendBit_stream st b h32 hz
    obtain ⟨f1, f2, f3⟩ := ih (appendBit st b) e2 e3
    refine ⟨?_, f2, f3⟩
    rw [List.foldl_cons, f1, e1]
    simp

theorem wordBits_split (buf off : Nat) (h : off ≤ 32)
    (hz : ∀ i, i < 32 - off → buf.testBit i = false) :
    wordBits buf =
      ((List.range off).map fun j => buf.testBit (31 - j)) ++
        List.replicate (32 - off) false := by
  apply List.ext_getElem
  · simp [wordBits]
    omega
  · intro i h1 h2
    simp only [wordBits, List.length_map, List.length_range] at h1
    simp only [wordBits]
    rw [List.getElem_map]
    by_cases hi : i < off
    · rw [List.getElem_append_left (by simpa using hi)]
      rw [List.getElem_map]
      simp [List.getElem_range]
    · rw [List.getElem_append_right (by simpa using hi)]
      simp only [List.length_map, List.length_range, List.getElem_replicate,
        List.getElem_range]
      exact hz (31 - i) (by omega)

theorem allBits_flush (st : PackState) (h32 : st.offset ≤ 32) (hz : ZeroLow st) :
    allBits (flushWordsOf st) = streamBits st ++ List.replicate (32 - st.offset) false := by
  unfold allBits flushWordsOf streamBits
  rw [List.map_append, List.flatten_append]
  simp only [List.map_cons, List.map_nil, List.flatten_cons, List.flatten_nil, List.append_nil]
  rw [List.append_assoc]
  congr 1
  exact wordBits_split st.buffer st.offset h32 hz

/-! ## Reading back: `popNextBit` iterated from the reset cursor -/

theorem popNextBit_end (words : List Nat) (rs : RState) (h : rs.index ≥ words.length) :
    popNextBit words rs = (-1, rs) := by
  unfold popNextBit
  rw [if_pos h]

theorem popNextBit_val (words : List Nat) (rs : RState) (h : rs.index < words.length) :
    (popNextBit words rs).1 =
      if (words.getD rs.index 0).testBit (31 - rs.offset) then 1 else 0 := by
  unfold popNextBit
  rw [if_neg (by omega : ¬ rs.index ≥ words.length)]
  have hb : ((words.getD rs.index 0) &&& (1 <<< (31 - rs.offset)) ≠ 0)
      ↔ (words.getD rs.index 0).testBit (31 - rs.offset) = true := by
    rw [Nat.one_shiftLeft, Nat.and_two_pow]
    cases htb : (words.getD rs.index 0).testBit (31 - rs.offset) <;>
      simp [htb, Nat.pos_iff_ne_zero, Nat.pow_eq_zero]
  by_cases htb : (words.getD rs.index 0).testBit (31 - rs.offset)
  · rw [if_pos htb]
    simp only []
    rw [if_pos (hb.mpr htb)]
  · rw [if_neg htb]
    simp only []
    rw [if_neg (fun hc => htb (hb.mp hc))]

theorem popNextBit_state (words : List Nat) (rs : RState) (h : rs.index < words.length) :
    (popNextBit words rs).2 =
      if rs.offset + 1 = 32 then RState.mk (rs.index + 1) 0
      else RState.mk rs.index (rs.offset + 1) := by
  unfold popNextBit
  rw [if_neg (by omega : ¬ rs.index ≥ words.length)]

theorem readAfter_eq (words : List Nat) :
    ∀ k, readAfter words k =
      if k < 32 * words.length then RState.mk (k / 32) (k % 32)
      else RState.mk words.length 0 := by
  intro k
  induction k with
  | zero =>
    by_cases h : 0 < 32 * words.length
    · rw [if_pos h]; rfl
    · rw [if_neg h]
      have hl : words.length = 0 := by omega
      rw [hl]; rfl
  | succ k ih =>
    simp only [readAfter, ih]
    by_cases hk : k < 32 * words.length
    · rw [if_pos hk]
      have hidx : k / 32 < words.length := by omega
      rw [popNextBit_state words _ (by simpa using hidx)]
      dsimp only
      by_cases h32 : k % 32 + 1 = 32
      · rw [if_pos (by simpa using h32)]
        by_cases hk1 : k + 1 < 32 * words.length
        · rw [if_pos hk1]
          simp only [RState.mk.injEq]
          omega
        · rw [if_neg hk1]
          simp only [RState.mk.injEq, and_true]
          omega
      · rw [if_neg (by simpa using h32)]
        rw [if_pos (by omega : k + 1 < 32 * words.length)]
        simp only [RState.mk.injEq]
        omega
    · rw [if_neg hk]
      rw [popNextBit_end words _ (by simp)]
      rw [if_neg (by omega)]

theorem popVal_lt (words : List Nat) (k : Nat) (hk : k < 32 * words.length) :
    popVal words k = if (words.getD (k / 32) 0).testBit (31 - k % 32) then 1 else 0 := by
  unfold popVal
  rw [readAfter_eq, if_pos hk]
  exact popNextBit_val words ⟨k / 32, k % 32⟩ (by simpa using (by omega : k / 32 < words.length))

theorem popVal_ge (words : List Nat) (k : Nat) (hk : 32 * words.length ≤ k) :
    popVal words k = -1 := by
  unfold popVal
  rw [readAfter_eq, if_neg (by omega)]
  rw [popNextBit_end words _ (by simp)]

theorem allBits_length (words : List Nat) : (allBits words).length = 32 * words.length := by
  induction words with
  | nil => simp [allBits]
  | cons w ws ih =>
    simp only [allBits, List.map_cons, List.flatten_cons, List.length_append] at ih ⊢
    simp [wordBits] at ih ⊢
    omega

theorem allBits_getD (words : List Nat) :
    ∀ k, k < 32 * words.length →
      (allBits words).getD k false = (words.getD (k / 32) 0).testBit (31 - k % 32) := by
  induction words with
  | nil => intro k hk; simp at hk
  | cons w ws ih =>
    intro k hk
    simp only [allBits, List.map_cons, List.flatten_cons]
    by_cases h32 : k < 32
    · rw [List.getD_append _ _ _ _ (by simp [wordBits]; omega)]
      rw [show k / 32 = 0 by omega]
      rw [show (31 : Nat) - k % 32 = 31 - k by omega]
      simp [wordBits, List.getD_eq_getElem?_getD, List.getElem?_map, List.getElem?_range h32]
    · rw [List.getD_append_right _ _ _ _ (by simp [wordBits]; omega)]
      have hlen : (wordBits w).length = 32 := by simp [wordBits]
      rw [hlen]
      have hrec := ih (k - 32) (by simp at hk; omega)
      simp only [allBits] at hrec
      rw [hrec]
      rw [show (k - 32) / 32 = k / 32 - 1 by omega]
      rw [show (k - 32) % 32 = k % 32 by omega]
      have hqe : ∃ q, k / 32 = q + 1 := ⟨k / 32 - 1, by omega⟩
      obtain ⟨q, hq⟩ := hqe
      rw [hq]
      simp [List.getD_cons_succ]

/-! ## PCM container lemmas -/

theorem writeBytesLE_length (v size : Nat) : (writeBytesLE v size).length = size := by
  simp [writeBytesLE]

theorem header_length : header.length = 44 := by decide

theorem getD_take (l : List Nat) (m n : Nat) (h : m < n) :
    (l.take n).getD m 0 = l.getD m 0 := by
  simp [List.getD_eq_getElem?_getD, List.getElem?_take, h]

theorem getD_drop (l : List Nat) (m n : Nat) : (l.drop n).getD m 0 = l.getD (n + m) 0 := by
  simp [List.getD_eq_getElem?_getD, List.getElem?_drop]

theorem length_take_of_le (l : List Nat) (pos : Nat) (h : pos ≤ l.length) :
    (l.take pos).length = pos := by
  rw [List.length_take]
  omega

theorem patchBytes_length (l repl : List Nat) (pos : Nat)
    (h : pos + repl.length ≤ l.length) :
    (patchBytes l pos repl).length = l.length := by
  simp [patchBytes]
  omega

theorem getD_patchBytes_inside (l repl : List Nat) (pos j : Nat)
    (hfit : pos + repl.length ≤ l.length) (hj : j < repl.length) :
    (patchBytes l pos repl).getD (pos + j) 0 = repl.getD j 0 := by
  unfold patchBytes
  rw [List.append_assoc]
  have ht : (l.take pos).length = pos := length_take_of_le l pos (by omega)
  rw [List.getD_append_right _ _ _ _ (by omega)]
  rw [ht, Nat.add_sub_cancel_left]
  rw [List.getD_append _ _ _ _ hj]

theorem getD_patchBytes_lt (l repl : List Nat) (pos j : Nat)
    (hj : j < pos) (hpos : pos ≤ l.length) :
    (patchBytes l pos repl).getD j 0 = l.getD j 0 := by
  unfold patchBytes
  rw [List.append_assoc]
  have ht : (l.take pos).length = pos := length_take_of_le l pos hpos
  rw [List.getD_append _ _ _ _ (by omega)]
  exact getD_take l j pos hj

theorem getD_patchBytes_ge (l repl : List Nat) (pos j : Nat)
    (hj : pos + repl.length ≤ j) (hfit : pos + repl.length ≤ l.length) :
    (patchBytes l pos repl).getD j 0 = l.getD j 0 := by
  unfold patchBytes
  rw [List.append_assoc]
  have ht : (l.take pos).length = pos := length_take_of_le l pos (by omega)
  rw [List.getD_append_right _ _ _ _ (by omega)]
  rw [ht]
  rw [List.getD_append_right _ _ _ _ (by omega)]
  rw [getD_drop]
  congr 1
  omega

theorem getD_writeBytesLE (v size j : Nat) (hj : j < size) :
    (writeBytesLE v size).getD j 0 = (v >>> (8 * j)) % 256 := by
  simp [writeBytesLE, List.getD_eq_getElem?_getD, List.getElem?_map, List.getElem?_range hj]

theorem readLE4_patch (l : List Nat) (pos v : Nat) (hfit : pos + 4 ≤ l.length) :
    readLE4 (patchBytes l pos (writeBytesLE v 4)) pos = v % 4294967296 := by
  have hfit4 : pos + (writeBytesLE v 4).length ≤ l.length := by
    rw [writeBytesLE_length]; omega
  have h0 := getD_patchBytes_inside l (writeBytesLE v 4) pos 0 hfit4
    (by rw [writeBytesLE_length]; omega)
  have h1 := getD_patchBytes_inside l (writeBytesLE v 4) pos 1 hfit4
    (by rw [writeBytesLE_length]; omega)
  have h2 := getD_patchBytes_inside l (writeBytesLE v 4) pos 2 hfit4
    (by rw [writeBytesLE_length]; omega)
  have h3 := getD_patchBytes_inside l (writeBytesLE v 4) pos 3 hfit4
    (by rw [writeBytesLE_length]; omega)
  rw [Nat.add_zero] at h0
  unfold readLE4
  rw [h0, h1, h2, h3]
  rw [getD_writeBytesLE v 4 0 (by omega), getD_writeBytesLE v 4 1 (by omega),
    getD_writeBytesLE v 4 2 (by omega), getD_writeBytesLE v 4 3 (by omega)]
  simp only [Nat.shiftRight_eq_div_pow]
  norm_num
  omega

theorem finalizeFile_length (l : List Nat) (h44 : 44 ≤ l.length) :
    (finalizeFile l).length = l.length := by
  unfold finalizeFile
  rw [patchBytes_length, patchBytes_length]
  · rw [writeBytesLE_length]; omega
  · rw [writeBytesLE_length, patchBytes_length]
    · omega
    · rw [writeBytesLE_length]; omega

theorem finalize_field4 (l : List Nat) (h44 : 44 ≤ l.length) :
    readLE4 (finalizeFile l) 4 = (l.length - 8) % 4294967296 := by
  unfold finalizeFile
  exact readLE4_patch _ 4 (l.length - 8)
    (by rw [patchBytes_length _ _ _ (by rw [writeBytesLE_length]; omega)]; omega)

theorem finalize_field40 (l : List Nat) (h44 : 44 ≤ l.length) :
    readLE4 (finalizeFile l) 40 = (l.length - 44) % 4294967296 := by
  unfold finalizeFile
  have hfit1 : (40 : Nat) + (writeBytesLE (l.length - 44) 4).length ≤ l.length := by
    rw [writeBytesLE_length]; omega
  have hlen1 : (patchBytes l 40 (writeBytesLE (l.length - 44) 4)).length = l.length :=
    patchBytes_length _ _ _ hfit1
  have huntouched : ∀ j, 8 ≤ j →
      (patchBytes (patchBytes l 40 (writeBytesLE (l.length - 44) 4)) 4
        (writeBytesLE (l.length - 8) 4)).getD j 0
        = (patchBytes l 40 (writeBytesLE (l.length - 44) 4)).getD j 0 := by
    intro j hj
    exact getD_patchBytes_ge _ _ _ _ (by rw [writeBytesLE_length]; omega)
      (by rw [writeBytesLE_length, hlen1]; omega)
  unfold readLE4
  rw [huntouched 40 (by omega), huntouched 41 (by omega), huntouched 42 (by omega),
    huntouched 43 (by omega)]
  exact readLE4_patch l 40 (l.length - 44) (by omega)

theorem getD_finalize_mid (l : List Nat) (j : Nat) (h44 : 44 ≤ l.length)
    (hj8 : 8 ≤ j) (hj40 : j < 40) :
    (finalizeFile l).getD j 0 = l.getD j 0 := by
  unfold finalizeFile
  have hfit1 : (40 : Nat) + (writeBytesLE (l.length - 44) 4).length ≤ l.length := by
    rw [writeBytesLE_length]; omega
  have hlen1 : (patchBytes l 40 (writeBytesLE (l.length - 44) 4)).length = l.length :=
    patchBytes_length _ _ _ hfit1
  rw [getD_patchBytes_ge _ _ _ _ (by rw [writeBytesLE_length]; omega)
    (by rw [writeBytesLE_length, hlen1]; omega)]
  exact getD_patchBytes_lt _ _ _ _ hj40 (by omega)

theorem getD_header_append (data : List Nat) (j : Nat) (hj : j < 44) :
    (header ++ data).getD j 0 = header.getD j 0 :=
  List.getD_append _ _ _ _ (by rw [header_length]; omega)

theorem file_header_fields (data : List Nat) :
    readLE4 (finalizeFile (header ++ data)) 24 = 44100 ∧
      readLE2 (finalizeFile (header ++ data)) 22 = 1 ∧
      readLE2 (finalizeFile (header ++ data)) 34 = 16 := by
  have hl : 44 ≤ (header ++ data).length := by
    rw [List.length_append, header_length]; omega
  refine ⟨?_, ?_, ?_⟩
  · unfold readLE4
    rw [getD_finalize_mid _ _ hl (by omega) (by omega),
      getD_finalize_mid _ _ hl (by omega) (by omega),
      getD_finalize_mid _ _ hl (by omega) (by omega),
      getD_finalize_mid _ _ hl (by omega) (by omega)]
    rw [getD_header_append data 24 (by omega), getD_header_append data 25 (by omega),
      getD_header_append data 26 (by omega), getD_header_append data 27 (by omega)]
    decide
  · unfold readLE2
    rw [getD_finalize_mid _ _ hl (by omega) (by omega),
      getD_finalize_mid _ _ hl (by omega) (by omega)]
    rw [getD_header_append data 22 (by omega), getD_header_append data 23 (by omega)]
    decide
  · unfold readLE2
    rw [getD_finalize_mid _ _ hl (by omega) (by omega),
      getD_finalize_mid _ _ hl (by omega) (by omega)]
    rw [getD_header_append data 34 (by omega), getD_header_append data 35 (by omega)]
    decide

/-! ## BPSK phase lemmas -/

theorem decodeDiff_encode_aux (bits : List Bool) :
    ∀ l, decodeDiff (!l) (encodeBitStreamBPSK l bits) = bits := by
  induction bits with
  | nil => intro l; rfl
  | cons b rest ih =>
    intro l
    cases b <;> cases l <;>
      simp [encodeBitStreamBPSK, decodeDiff] <;>
      first
        | exact (by simpa using ih true)
        | exact (by simpa using ih false)

/-! ## Bit accounting through the whole pipeline -/

/-- The packer states the pipeline reaches after appending `N` bits: offset
in range, bit count `N`, offset positive once anything was appended. -/
def Reach (st : PackState) (N : Nat) : Prop :=
  st.offset ≤ 32 ∧ bitCount st = N ∧ (1 ≤ N → 1 ≤ st.offset)

theorem reach_init : Reach initState 0 :=
  ⟨by simp [initState], rfl, by omega⟩

theorem reach_addBitsC (data : List Nat) (n : Nat) (st : PackState) (N : Nat)
    (h : Reach st N) : Reach (addBitsC data n st) (N + n) := by
  obtain ⟨h32, hc, h1⟩ := h
  obtain ⟨c1, c2, c3⟩ := addBitsLoop_count data n n 0 0 st (le_refl n) h32
  simp only [addBitsC]
  refine ⟨c2, by rw [c1, hc], ?_⟩
  intro hN
  rcases Nat.eq_zero_or_pos n with h0 | h0
  · subst h0
    rw [addBitsLoop_zero]
    exact h1 (by omega)
  · exact c3 h0

theorem reach_addNZeroBits (k : Nat) :
    ∀ st N, Reach st N → Reach (addNZeroBits k st) (N + k) := by
  induction k with
  | zero => intro st N h; simpa using h
  | succ k ih =>
    intro st N h
    have h1 := reach_addBitsC [0] 1 st N h
    have h2 := ih _ _ h1
    have e : N + 1 + k = N + (k + 1) := by omega
    rw [addNZeroBits]
    exact e ▸ h2

theorem reach_addVaricodeC (v : Nat) (st : PackState) (N : Nat) (h : Reach st N) :
    Reach (addVaricodeC v st) (N + varicodeAppendLen v) := by
  unfold addVaricodeC varicodeAppendLen
  cases hscan : scanVaricode v with
  | none => simpa using h
  | some i => exact reach_addBitsC _ _ _ _ h

theorem reach_foldChars (tab : Char → Nat) (msg : List Char) :
    ∀ st N, Reach st N →
      Reach (msg.foldl (fun st c => addBitsC [0] 2 (addVaricodeC (tab c) st)) st)
        (N + (msg.map fun c => varicodeAppendLen (tab c) + 2).sum) := by
  induction msg with
  | nil => intro st N h; simpa using h
  | cons c msg ih =>
    intro st N h
    have h1 := reach_addVaricodeC (tab c) st N h
    have h2 := reach_addBitsC [0] 2 _ _ h1
    have h3 := ih _ _ h2
    have e : N + varicodeAppendLen (tab c) + 2 +
          (msg.map fun c => varicodeAppendLen (tab c) + 2).sum
        = N + ((c :: msg).map fun c => varicodeAppendLen (tab c) + 2).sum := by
      simp [List.map_cons, List.sum_cons]
      omega
    rw [List.foldl_cons]
    exact e ▸ h3

/-- Total number of bits the pipeline appends before flushing: preamble,
per-character varicode plus the two-zero separator, postamble. -/
def bitCountOf (tab : Char → Nat) (pre post : Nat) (msg : List Char) : Nat :=
  pre + (msg.map fun c => varicodeAppendLen (tab c) + 2).sum + post

theorem reach_buildBitStream (tab : Char → Nat) (pre post : Nat) (msg : List Char) :
    Reach (buildBitStream tab pre post msg) (bitCountOf tab pre post msg) := by
  unfold buildBitStream bitCountOf
  have h1 := reach_addNZeroBits pre initState 0 reach_init
  have h2 := reach_foldChars tab msg _ _ h1
  have h3 := reach_addNZeroBits post _ _ h2
  have e : 0 + pre + (msg.map fun c => varicodeAppendLen (tab c) + 2).sum + post
      = pre + (msg.map fun c => varicodeAppendLen (tab c) + 2).sum + post := by omega
  exact e ▸ h3

theorem flushWords_length (tab : Char → Nat) (pre post : Nat) (msg : List Char)
    (hN : 1 ≤ bitCountOf tab pre post msg) :
    (flushWordsOf (buildBitStream tab pre post msg)).length
      = (bitCountOf tab pre post msg + 31) / 32 := by
  obtain ⟨h32, hc, h1⟩ := reach_buildBitStream tab pre post msg
  have ho := h1 hN
  simp only [flushWordsOf, List.length_append, List.length_cons, List.length_nil]
  simp only [bitCount] at hc
  omega

theorem sample_flatten_length (f : Nat → Int) (n : Nat) :
    (((List.range n).map fun k => sampleLE2 (f k)).flatten).length = 2 * n := by
  induction n with
  | zero => simp
  | succ n ih =>
    rw [List.range_succ, List.map_append, List.flatten_append]
    simp only [List.map_cons, List.map_nil, List.flatten_cons, List.flatten_nil,
      List.append_nil, List.length_append]
    rw [ih]
    have h2 : (sampleLE2 (f n)).length = 2 := by simp [sampleLE2, writeBytesLE]
    omega

theorem numSymbols_bpsk (m : Mode) (words : List Nat) (h : isBPSK m = true) :
    numSymbols m words = 32 * words.length := by
  unfold numSymbols
  rw [h]
  simp [allBits_length]

theorem numSymbols_qpsk (m : Mode) (words : List Nat) (h : isBPSK m = false) :
    numSymbols m words = 0 := by
  unfold numSymbols
  rw [h]
  simp

theorem mkFile_length_bpsk (tab : Char → Nat) (pre post : Nat) (f : Nat → Int)
    (cs : List Char) (mc : Bool) (msg : List Char) (mode : Mode)
    (hB : isBPSK mode = true) (hN : 1 ≤ bitCountOf tab pre post msg) :
    (mkFile tab pre post f ⟨mode, cs, mc⟩ msg).length
      = 44 + samplesPerSymbol mode * (32 * ((bitCountOf tab pre post msg + 31) / 32)) * 2 := by
  have hW := flushWords_length tab pre post msg hN
  have hn : numSymbols mode (flushWordsOf (buildBitStream tab pre post msg))
      = 32 * ((bitCountOf tab pre post msg + 31) / 32) := by
    rw [numSymbols_bpsk _ _ hB, hW]
  show (finalizeFile (header ++
      ((List.range (numSymbols mode (flushWordsOf (buildBitStream tab pre post msg))
          * samplesPerSymbol mode)).map fun k => sampleLE2 (f k)).flatten)).length = _
  rw [finalizeFile_length _ (by rw [List.length_append, header_length]; omega)]
  rw [List.length_append, header_length, sample_flatten_length, hn]
  ring

theorem mkFile_qpsk_eq (tab : Char → Nat) (pre post : Nat) (f : Nat → Int)
    (cs : List Char) (mc : Bool) (msg : List Char) (mode : Mode)
    (h : isBPSK mode = false) :
    mkFile tab pre post f ⟨mode, cs, mc⟩ msg = finalizeFile header := by
  show finalizeFile (header ++
      ((List.range (numSymbols mode (flushWordsOf (buildBitStream tab pre post msg))
          * samplesPerSymbol mode)).map fun k => sampleLE2 (f k)).flatten) = finalizeFile header
  rw [numSymbols_qpsk _ _ h]
  simp

theorem mkFile_header_fields (tab : Char → Nat) (pre post : Nat) (f : Nat → Int)
    (cfg : PSKConfig) (msg : List Char) :
    readLE4 (mkFile tab pre post f cfg msg) 24 = 44100 ∧
      readLE2 (mkFile tab pre post f cfg msg) 22 = 1 ∧
      readLE2 (mkFile tab pre post f cfg msg) 34 = 16 :=
  file_header_fields _

/-! ## The packed stream read back, for single-bit appends -/

/-- The word list the modulator reads after the packer receives the bits of
`bs` one at a time (as the preamble, separators and postamble are appended)
and `pushBufferToBitStream` runs. -/
def packedWords (bs : List Bool) : List Nat :=
  flushWordsOf (bs.foldl appendBit initState)

theorem packedWords_spec (bs : List Bool) :
    allBits (packedWords bs)
        = bs ++ List.replicate (32 * (packedWords bs).length - bs.length) false ∧
      bs.length ≤ 32 * (packedWords bs).length := by
  have hinit32 : initState.offset ≤ 32 := by simp [initState]
  have hinitz : ZeroLow initState := fun i _ => Nat.zero_testBit i
  obtain ⟨f1, f2, f3⟩ := foldl_appendBit_stream bs initState hinit32 hinitz
  have hf := allBits_flush (bs.foldl appendBit initState) f2 f3
  have hinit : streamBits initState = [] := by simp [streamBits, initState]
  rw [f1, hinit, List.nil_append] at hf
  have hL : (allBits (packedWords bs)).length = 32 * (packedWords bs).length :=
    allBits_length _
  unfold packedWords at hL ⊢
  rw [hf] at hL ⊢
  simp only [List.length_append, List.length_replicate] at hL
  constructor
  · congr 2
    omega
  · omega

/-! ## Varicode scan and emission for well-formed table entries -/

theorem isValidCode_bounds (v L : Nat) (h : isValidCode v L = true) :
    1 ≤ L ∧ L ≤ 10 ∧ v < 2 ^ L := by
  unfold isValidCode at h
  simp only [Bool.and_eq_true, decide_eq_true_eq] at h
  exact ⟨h.1.1.1.1.1, h.1.1.1.1.2, h.1.1.1.2⟩

theorem scan_of_valid_bounded :
    ∀ L < 11, ∀ v < 1024, isValidCode v L = true → scanVaricode v = some (L + 1) := by
  decide

theorem scan_of_valid (v L : Nat) (h : isValidCode v L = true) :
    scanVaricode v = some (L + 1) := by
  obtain ⟨h1, h10, hv⟩ := isValidCode_bounds v L h
  refine scan_of_valid_bounded L (by omega) v (lt_of_lt_of_le hv ?_) h
  calc 2 ^ L ≤ 2 ^ 10 := Nat.pow_le_pow_right (by norm_num) h10
    _ = 1024 := by norm_num

theorem varicodeAppendLen_of_valid (v L : Nat) (h : isValidCode v L = true) :
    varicodeAppendLen v = L := by
  unfold varicodeAppendLen
  rw [scan_of_valid v L h]
  simp

theorem varicode_emit_bounded :
    ∀ L < 10, ∀ v < 512, isValidCode v L = true →
      emittedOf v = codeBits v L ∧
        firstPairZero (emittedOf v ++ [false, false]) = some L := by
  decide

/-! ## The claims -/

/-- Claim C1, counterexample: on the single-bit stream `[1]` with
`last_phase` initialized to 0, the claimed rule emits a symbol at phase 0
(the same phase as `last_phase`), but `encodeBitStream` emits phase π
(`addSymbol(last_phase ? 0 : M_PI)` with `last_phase = 0`). -/
theorem c1_counterexample :
    encodeBitStreamBPSK false [true] ≠ specBpskEncode false [true] ∧
      encodeBitStreamBPSK false [true] = [true] ∧
      specBpskEncode false [true] = [false] := by decide

/-- Claim C1 (amended): the BPSK modulator keeps `last_phase ∈ {0, π}`
(`true` stands for π) initialized to 0, and the state evolves exactly as
the claim says (bit 1 keeps it, bit 0 toggles it), but the emitted phase is
inverted relative to the claim: bit 1 emits one symbol at the phase
OPPOSITE to `last_phase`, and bit 0 emits one symbol at the phase whose
value equals the old `last_phase`.  Hence the emitted phase sequence is the
pointwise complement of the sequence the claim describes. -/
theorem c1_bpsk_phase_rule (last : Bool) (bits : List Bool) :
    encodeBitStreamBPSK last bits = (specBpskEncode last bits).map (fun p => !p) := by
  induction bits generalizing last with
  | nil => rfl
  | cons b rest ih =>
    cases b <;> simp [encodeBitStreamBPSK, specBpskEncode, ih]

/-- Claim C2, counterexample: modulating the single-bit sequence `[1]` and
decoding the emitted phase sequence by the differential rule (reference
phase 0 before the first symbol) yields `[0]`, not the original `[1]`. -/
theorem c2_counterexample :
    decodeDiff false (encodeBitStreamBPSK false [true]) = [false] ∧
      ([false] ≠ ([true] : List Bool)) := by decide

/-- Claim C2 (amended): decoding the emitted phase sequence by the
differential rule recovers the original bit sequence with its FIRST bit
complemented (all bits after the first are recovered exactly); the
round-trip as claimed fails only at the first bit, because the code's
emitted phase is inverted relative to the phase-transition convention the
decoder assumes. -/
theorem c2_differential_roundtrip (bits : List Bool) :
    decodeDiff false (encodeBitStreamBPSK false bits) = negFirst bits := by
  cases bits with
  | nil => rfl
  | cons b rest =>
    cases b
    · simp [encodeBitStreamBPSK, decodeDiff, negFirst]
      simpa using decodeDiff_encode_aux rest true
    · simp [encodeBitStreamBPSK, decodeDiff, negFirst]
      simpa using decodeDiff_encode_aux rest false

/-- Claim C3: after `finalizeFile`, the RIFF size field at byte offset 4
equals the total file size minus 8, the data-chunk size field at byte
offset 40 equals the total file size minus 44, and the header written
before the samples occupies exactly 44 bytes — for any sample payload
whose total size fits the 32-bit length fields. -/
theorem c3_finalize_patches_lengths (data : List Nat)
    (hsize : 44 + data.length < 4294967296) :
    (finalizeFile (header ++ data)).length = 44 + data.length ∧
      readLE4 (finalizeFile (header ++ data)) 4 = (finalizeFile (header ++ data)).length - 8 ∧
      readLE4 (finalizeFile (header ++ data)) 40 = (finalizeFile (header ++ data)).length - 44 ∧
      header.length = 44 := by
  have hlen : (header ++ data).length = 44 + data.length := by
    rw [List.length_append, header_length]
  have h44 : 44 ≤ (header ++ data).length := by omega
  have hfl : (finalizeFile (header ++ data)).length = (header ++ data).length :=
    finalizeFile_length _ h44
  refine ⟨by rw [hfl, hlen], ?_, ?_, header_length⟩
  · rw [finalize_field4 _ h44, hfl]
    rw [Nat.mod_eq_of_lt (by omega)]
  · rw [finalize_field40 _ h44, hfl]
    rw [Nat.mod_eq_of_lt (by omega)]

/-- Claim C3, witness: the empty sample payload. -/
theorem c3_witness :
    (finalizeFile (header ++ ([] : List Nat))).length = 44 + ([] : List Nat).length ∧
      readLE4 (finalizeFile (header ++ ([] : List Nat))) 4
        = (finalizeFile (header ++ ([] : List Nat))).length - 8 := by
  have h := c3_finalize_patches_lengths [] (by norm_num)
  exact ⟨h.1, h.2.1⟩

/-- Claim C4, counterexample: from the reachable fill state after 31
appended zero bits (fill offset 31), the call `addBits([0xFF, 0x00], 10)`
reaches the byte-at-a-time fast path in mid-byte (after one bit of the
first source byte was already consumed by the bit path) and packs
different words than appending the same bits one bit at a time. -/
theorem c4_counterexample :
    addBitsC [255, 0] 10 (addNZeroBits 31 initState)
        ≠ addBitsRefC [255, 0] 10 (addNZeroBits 31 initState) ∧
      (addNZeroBits 31 initState).offset = 31 := by decide

/-- Claim C4 (amended): for byte-valued sources and any packer fill state,
the dual-path `addBits` produces exactly the same packed words and fill
offset as the pure bit-at-a-time path whenever the appended count is at
most 8 (the fast path cannot fire) or the count fits the remaining space
of the current word (the fast path then only fires at source-byte
boundaries).  The excluded case — a count above 8 that straddles the word
boundary from an offset that is not a multiple of 8 — is the
counterexample's mid-byte divergence. -/
theorem c4_paths_agree (data : List Nat) (n : Nat) (st : PackState)
    (hdata : ∀ x ∈ data, x < 256) (hoff : st.offset ≤ 32)
    (hcond : n ≤ 8 ∨ n ≤ 32 - st.offset) :
    addBitsC data n st = addBitsRefC data n st := by
  rcases hcond with h | h
  · exact addBitsLoop_small data n n 0 0 st h
  · exact addBitsLoop_fits data hdata n 0 st (by omega)

/-- Claim C4, witness: a 10-bit append into an empty word. -/
theorem c4_witness :
    addBitsC [255, 0] 10 initState = addBitsRefC [255, 0] 10 initState :=
  c4_paths_agree [255, 0] 10 initState (by decide) (by decide) (by decide)

/-- Claim C5, counterexample: after appending the single bit 1 and
flushing, the second pop (read index 1, beyond the logical length 1)
returns 0 — a bit that was never appended — instead of signalling `-1`. -/
theorem c5_counterexample :
    popVal (packedWords [true]) 1 = 0 ∧ ((0 : Int) ≠ -1) := by decide

/-- Claim C5 (amended): after the flush, popping returns the appended bits
in order as a prefix; past the logical length it returns 0 for every
padding bit up to the 32-bit word boundary of the pushed words (the
unconditional flush pushes the partial — possibly empty — buffer word),
and it signals `-1` precisely when the read cursor reaches 32 times the
number of pushed words, not at the number of appended bits. -/
theorem c5_pop_returns_bits (bs : List Bool) (k : Nat) :
    (k < bs.length → popVal (packedWords bs) k = (if bs.getD k false then 1 else 0)) ∧
      (bs.length ≤ k → k < 32 * (packedWords bs).length → popVal (packedWords bs) k = 0) ∧
      (32 * (packedWords bs).length ≤ k → popVal (packedWords bs) k = -1) := by
  obtain ⟨hab, hle⟩ := packedWords_spec bs
  refine ⟨?_, ?_, ?_⟩
  · intro hk
    rw [popVal_lt _ _ (by omega)]
    rw [← allBits_getD _ _ (by omega)]
    rw [hab]
    rw [List.getD_append _ _ _ _ hk]
  · intro hk1 hk2
    rw [popVal_lt _ _ hk2]
    rw [← allBits_getD _ _ hk2]
    rw [hab]
    rw [List.getD_append_right _ _ _ _ hk1]
    have hpad : (List.replicate (32 * (packedWords bs).length - bs.length) false).getD
        (k - bs.length) false = false := by
      rcases Nat.lt_or_ge (k - bs.length) (32 * (packedWords bs).length - bs.length) with h | h
      · rw [List.getD_eq_getElem?_getD]
        simp [List.getElem?_replicate, h]
      · rw [List.getD_eq_getElem?_getD]
        rw [List.getElem?_eq_none (by simpa using h)]
        rfl
    rw [hpad]
    rfl
  · intro hk
    exact popVal_ge _ _ hk

/-- Claim C5, witness: for the one-bit stream, pop 0 returns the bit, pop 5
returns a padding zero, pop 32 signals end of stream. -/
theorem c5_witness :
    popVal (packedWords [true]) 0 = 1 ∧ popVal (packedWords [true]) 5 = 0 ∧
      popVal (packedWords [true]) 32 = -1 := by
  refine ⟨?_, ?_, ?_⟩
  · have h := (c5_pop_returns_bits [true] 0).1 (by decide)
    simpa using h
  · exact (c5_pop_returns_bits [true] 5).2.1 (by decide) (by decide)
  · exact (c5_pop_returns_bits [true] 32).2.2 (by decide)

/-- A concrete instantiation of the external varicode table for the two
characters of the C7 message: code 1010101 for H (7 bits) and 1101 for i
(4 bits), both well-formed in the sense of `isValidCode`, with value 0 (no
entry) for every other character.  Modelled from the spec: the real table
is declared only in the repository's stubbed header. -/
def tabHi : Char → Nat := fun c => if c = 'H' then 85 else if c = 'i' then 13 else 0

/-- Claim C6, counterexample: with a table in which every character is
absent (lookup value 0, as for a missing entry) and an output path that
opens, `encodeTextData` on a one-character message still succeeds — no
`UnsupportedCharacter` failure is ever signalled, and a file is written. -/
theorem c6_counterexample :
    (fun _ : Char => (0 : Nat)) 'a' = 0 ∧
      (encodeTextData (fun _ => 0) 0 0 (fun _ => 0) true ⟨Mode.BPSK125, [], false⟩
        [ 'a' ]).isSome = true :=
  ⟨rfl, rfl⟩

/-- Claim C6 (amended): `encodeTextData` succeeds exactly when the output
file opens (it throws otherwise), and a character whose looked-up code
is 0 — an absent table entry — contributes no varicode bits and never
causes a failure; no `UnsupportedCharacter` outcome exists in the code. -/
theorem c6_encode_success_iff_open (tab : Char → Nat) (pre post : Nat) (f : Nat → Int)
    (openOk : Bool) (cfg : PSKConfig) (msg : List Char) (st : PackState) :
    ((encodeTextData tab pre post f openOk cfg msg).isSome = openOk) ∧
      addVaricodeC 0 st = st := by
  constructor
  · cases openOk <;> rfl
  · rfl

/-- Claim C7, counterexample: with the table instantiation `tabHi` and
preamble and postamble lengths 32, the data-chunk byte length of the file
for "Hi" in BPSK125 is 352·96·2 — the bit stream is zero-padded to a
32-bit word boundary, ⌈79/32⌉·32 = 96 modulated symbols — and not the
claimed 352·(32 + (7+2) + (4+2) + 32)·2 = 352·79·2. -/
theorem c7_counterexample :
    (mkFile tabHi 32 32 (fun _ => 0) ⟨Mode.BPSK125, [], false⟩ [ 'H', 'i' ]).length
        = 44 + 352 * 96 * 2 ∧
      (44 + 352 * 96 * 2 : Nat) ≠ 44 + 352 * (32 + (7 + 2) + (4 + 2) + 32) * 2 := by
  constructor
  · have hN : bitCountOf tabHi 32 32 [ 'H', 'i' ] = 79 := by decide
    have hlen := mkFile_length_bpsk tabHi 32 32 (fun _ => 0) [] false [ 'H', 'i' ]
      Mode.BPSK125 rfl (by rw [hN]; omega)
    rw [hlen, hN]
    decide
  · decide

/-- Claim C7 (amended): for every table whose entries for H and i are
well-formed codes of lengths `LH` and `Li`, every preamble and postamble
length and every sample-value function, encoding "Hi" in BPSK125 yields a
file whose header declares sample rate 44100, 16 bits per sample and one
channel, and whose data-chunk byte length is
`352 × (32·⌈(pre + (LH+2) + (Li+2) + post) / 32⌉) × 2` — the claimed bit
count rounded up to the 32-bit word boundary the flush pads to — and the
call succeeds. -/
theorem c7_encode_hi_bpsk125 (tab : Char → Nat) (pre post : Nat) (f : Nat → Int)
    (cs : List Char) (mc : Bool) (LH Li : Nat)
    (hH : isValidCode (tab 'H') LH = true) (hI : isValidCode (tab 'i') Li = true) :
    (mkFile tab pre post f ⟨Mode.BPSK125, cs, mc⟩ [ 'H', 'i' ]).length
        = 44 + 352 * (32 * ((pre + (LH + 2) + (Li + 2) + post + 31) / 32)) * 2 ∧
      readLE4 (mkFile tab pre post f ⟨Mode.BPSK125, cs, mc⟩ [ 'H', 'i' ]) 24 = 44100 ∧
      readLE2 (mkFile tab pre post f ⟨Mode.BPSK125, cs, mc⟩ [ 'H', 'i' ]) 22 = 1 ∧
      readLE2 (mkFile tab pre post f ⟨Mode.BPSK125, cs, mc⟩ [ 'H', 'i' ]) 34 = 16 ∧
      (encodeTextData tab pre post f true ⟨Mode.BPSK125, cs, mc⟩ [ 'H', 'i' ]).isSome
        = true := by
  have hNdef : bitCountOf tab pre post [ 'H', 'i' ]
      = pre + (LH + 2) + (Li + 2) + post := by
    unfold bitCountOf
    rw [List.map_cons, List.map_cons, List.map_nil, List.sum_cons, List.sum_cons,
      List.sum_nil]
    rw [varicodeAppendLen_of_valid _ _ hH, varicodeAppendLen_of_valid _ _ hI]
    omega
  have hN1 : 1 ≤ bitCountOf tab pre post [ 'H', 'i' ] := by
    rw [hNdef]
    have h1 := (isValidCode_bounds _ _ hH).1
    omega
  have hlen := mkFile_length_bpsk tab pre post f cs mc [ 'H', 'i' ] Mode.BPSK125 rfl hN1
  obtain ⟨hf1, hf2, hf3⟩ :=
    mkFile_header_fields tab pre post f ⟨Mode.BPSK125, cs, mc⟩ [ 'H', 'i' ]
  refine ⟨?_, hf1, hf2, hf3, rfl⟩
  rw [hlen, hNdef]
  norm_num [samplesPerSymbol, symbolRate]

/-- Claim C7, witness: the table `tabHi` with preamble and postamble 32. -/
theorem c7_witness :
    (mkFile tabHi 32 32 (fun _ => 0) ⟨Mode.BPSK125, [], false⟩ [ 'H', 'i' ]).length
      = 44 + 352 * (32 * ((32 + (7 + 2) + (4 + 2) + 32 + 31) / 32)) * 2 :=
  (c7_encode_hi_bpsk125 tabHi 32 32 (fun _ => 0) [] false 7 4 (by decide) (by decide)).1

/-- Claim C8, counterexample: the value 683 (binary 1010101011) is a
well-formed 10-bit table entry, but `addVaricode` emits 0101010111 — it
drops the most significant code bit and emits bit 1 of the stored value
twice — so the appended bits are not the character's code. -/
theorem c8_counterexample :
    isValidCode 683 10 = true ∧ emittedOf 683 ≠ codeBits 683 10 := by decide

/-- Claim C8 (amended): for every well-formed table entry of 1 to 9 bits,
the bits `addVaricode` emits are exactly the code (most significant bit
first), and scanning the emitted bits followed by the two-zero separator
for the first pair of consecutive zeros recovers exactly the code length;
10-bit entries are mis-emitted (see the counterexample). -/
theorem c8_varicode_roundtrip (v L : Nat) (h : isValidCode v L = true) (h9 : L ≤ 9) :
    emittedOf v = codeBits v L ∧
      firstPairZero (emittedOf v ++ [false, false]) = some L := by
  obtain ⟨h1, h10, hv⟩ := isValidCode_bounds v L h
  refine varicode_emit_bounded L (by omega) v (lt_of_lt_of_le hv ?_) h
  calc 2 ^ L ≤ 2 ^ 9 := Nat.pow_le_pow_right (by norm_num) h9
    _ = 512 := by norm_num

/-- Claim C8, witness: the 4-bit entry 1101. -/
theorem c8_witness :
    emittedOf 13 = codeBits 13 4 ∧
      firstPairZero (emittedOf 13 ++ [false, false]) = some 4 :=
  c8_varicode_roundtrip 13 4 (by decide) (by decide)

/-- Claim C9: in each QPSK mode the modulation branch of `encodeBitStream`
is empty, so `encodeTextData` writes zero audio samples: the file is
exactly the 44-byte header with the data-chunk size field patched to 0,
and the call still reports success. -/
theorem c9_qpsk_emits_nothing (tab : Char → Nat) (pre post : Nat) (f : Nat → Int)
    (cs : List Char) (mc : Bool) (msg : List Char) (mode : Mode)
    (hq : isBPSK mode = false) :
    (encodeTextData tab pre post f true ⟨mode, cs, mc⟩ msg).isSome = true ∧
      (mkFile tab pre post f ⟨mode, cs, mc⟩ msg).length = 44 ∧
      readLE4 (mkFile tab pre post f ⟨mode, cs, mc⟩ msg) 40 = 0 := by
  have he := mkFile_qpsk_eq tab pre post f cs mc msg mode hq
  refine ⟨rfl, ?_, ?_⟩
  · rw [he]
    decide
  · rw [he]
    decide

/-- Claim C9, witness: QPSK125 on the empty message. -/
theorem c9_witness :
    (encodeTextData (fun _ => 0) 0 0 (fun _ => 0) true ⟨Mode.QPSK125, [], false⟩
        []).isSome = true ∧
      (mkFile (fun _ => 0) 0 0 (fun _ => 0) ⟨Mode.QPSK125, [], false⟩ []).length = 44 ∧
      readLE4 (mkFile (fun _ => 0) 0 0 (fun _ => 0) ⟨Mode.QPSK125, [], false⟩ []) 40 = 0 :=
  c9_qpsk_emits_nothing (fun _ => 0) 0 0 (fun _ => 0) [] false [] Mode.QPSK125 rfl

/-- Claim C10: the bytes `encodeTextData` produces are identical across any
two callsign configurations (`call_sign_` and `morse_callsign_` as set by
the two constructors) for the same mode, message and open result: the
callsign fields never influence the output file. -/
theorem c10_callsign_no_influence (tab : Char → Nat) (pre post : Nat) (f : Nat → Int)
    (openOk : Bool) (mode : Mode) (msg : List Char) (cs1 cs2 : List Char)
    (mc1 mc2 : Bool) :
    encodeTextData tab pre post f openOk ⟨mode, cs1, mc1⟩ msg
      = encodeTextData tab pre post f openOk ⟨mode, cs2, mc2⟩ msg := rfl

end PSK31
